import Mathlib

/-!
Shallow embedding of `src/bit_queue.c` (amitfr/bit_queue), a bit-addressable
circular buffer.  Byte buffers are `List Nat` (each entry models a `uint8_t`),
`size_t` arithmetic that can wrap is modelled modulo `2 ^ 64`, and `uint8_t`
compound assignments are modelled modulo `2 ^ 8`.  Fallible C functions return
their `int` result together with the `errno` value they set (`none` when the
call leaves `errno` untouched).
-/

/-- Number of bits in a byte (`BITS_IN_BYTE` in the C source). -/
def BITS_IN_BYTE : Nat := 8

/-- `BYTE_MASK` from the C source. -/
def BYTE_MASK : Nat := 0xff

/-- `CREATE_BYTE_MASK(bit_offset)` from the C source. -/
def CREATE_BYTE_MASK (bit_offset : Nat) : Nat := (BYTE_MASK <<< bit_offset) &&& BYTE_MASK

/-- `CREATE_BYTE_MASK_LSB(bit_offset)` from the C source. -/
def CREATE_BYTE_MASK_LSB (bit_offset : Nat) : Nat := CREATE_BYTE_MASK bit_offset >>> bit_offset

/-- Modulus of `size_t` arithmetic (64-bit). -/
def W64 : Nat := 2 ^ 64

/-- `size_t` multiplication (wraps modulo `2 ^ 64`). -/
def mul64 (a b : Nat) : Nat := a * b % W64

/-- `size_t` subtraction (wraps modulo `2 ^ 64`). -/
def sub64 (a b : Nat) : Nat := (a + (W64 - b % W64)) % W64

/-- Logical bit `p` of a byte buffer: bit `p % 8` (LSB first) of byte `p / 8`.
Out-of-range bytes read as `0`, matching the model's out-of-range `getD`. -/
def bufBit (buf : List Nat) (p : Nat) : Bool := (buf.getD (p / 8) 0).testBit (p % 8)

/-- The `errno` values the C source can set. -/
inductive Cerrno where
  | EINVAL
  | EMSGSIZE
  | EAGAIN
deriving DecidableEq, Repr

/-- State of the do-while loop inside `bit_queue_bit_buffer_copy`. -/
structure CopySt where
  dst : List Nat
  dst_byte_offset : Nat
  dst_bit_offset : Nat
  src_byte_offset : Nat
  src_bit_offset : Nat
  r_bits : Nat
deriving DecidableEq, Repr

/-- One iteration of the do-while loop of `bit_queue_bit_buffer_copy`
(bit_queue.c lines 339-377).  In C `dst_bit_offset` is a `uint8_t`, hence the
`% 256` on its update; `src_bit_offset` and `r_bits` are `size_t` (their
updates cannot wrap once the function's entry checks have passed, so plain
truncated subtraction is used for `r_bits`). -/
def copyStep (src_buff : List Nat) (s : CopySt) : CopySt :=
  let offset_bit_count :=
    if s.r_bits + s.dst_bit_offset ≤ BITS_IN_BYTE ∧ s.r_bits ≤ BITS_IN_BYTE - s.src_bit_offset then
      BITS_IN_BYTE - s.r_bits
    else if s.dst_bit_offset ≥ s.src_bit_offset then
      s.dst_bit_offset
    else
      s.src_bit_offset
  let v := ((src_buff.getD s.src_byte_offset 0 &&&
      (CREATE_BYTE_MASK_LSB offset_bit_count <<< s.src_bit_offset)) >>> s.src_bit_offset)
      <<< s.dst_bit_offset
  let dst := s.dst.set s.dst_byte_offset ((s.dst.getD s.dst_byte_offset 0 ||| v) % 256)
  let src_bit1 := s.src_bit_offset + (BITS_IN_BYTE - offset_bit_count)
  let dst_bit1 := (s.dst_bit_offset + (BITS_IN_BYTE - offset_bit_count)) % 256
  let r_bits1 := s.r_bits - (BITS_IN_BYTE - offset_bit_count)
  { dst := dst
    dst_byte_offset := if dst_bit1 = BITS_IN_BYTE then s.dst_byte_offset + 1 else s.dst_byte_offset
    dst_bit_offset := if dst_bit1 = BITS_IN_BYTE then 0 else dst_bit1
    src_byte_offset := if src_bit1 = BITS_IN_BYTE then s.src_byte_offset + 1 else s.src_byte_offset
    src_bit_offset := if src_bit1 = BITS_IN_BYTE then 0 else src_bit1
    r_bits := r_bits1 }

/-- The do-while loop of `bit_queue_bit_buffer_copy`, with explicit fuel.
Once the function's entry checks have passed every iteration moves at least
one bit, so fuel `r_bits + 1` always suffices to reach `r_bits = 0`. -/
def copyLoop (src_buff : List Nat) : Nat → CopySt → CopySt
  | 0, s => s
  | fuel + 1, s =>
    let s1 := copyStep src_buff s
    if s1.r_bits > 0 then copyLoop src_buff fuel s1 else s1

/-- `bit_queue_bit_buffer_copy` (bit_queue.c lines 309-382).  Returns the
final destination buffer, the `int` return value (`-1` on failure) and the
`errno` set by the call.  The `NULL`-pointer checks of the C code have no
counterpart here, buffers being values. -/
def bit_queue_bit_buffer_copy (dst_buff src_buff : List Nat)
    (dst_byte_offset dst_bit_offset dst_buff_size
     src_byte_offset src_bit_offset src_buff_size bit_count : Nat) :
    List Nat × Int × Option Cerrno :=
  if bit_count = 0 ∨ dst_buff_size < dst_byte_offset ∨ src_buff_size < src_byte_offset ∨
      dst_bit_offset ≥ BITS_IN_BYTE ∨ src_bit_offset ≥ BITS_IN_BYTE ∨
      mul64 src_buff_size BITS_IN_BYTE < bit_count then
    (dst_buff, -1, some Cerrno.EINVAL)
  else if sub64 (mul64 (sub64 dst_buff_size dst_byte_offset) BITS_IN_BYTE) dst_bit_offset
      < bit_count then
    (dst_buff, -1, some Cerrno.EMSGSIZE)
  else
    let src_avail := sub64 (mul64 (sub64 src_buff_size src_byte_offset) BITS_IN_BYTE) src_bit_offset
    let clipped := if bit_count > src_avail then src_avail else bit_count
    let f := copyLoop src_buff (clipped + 1)
      ⟨dst_buff, dst_byte_offset, dst_bit_offset, src_byte_offset, src_bit_offset, clipped⟩
    (f.dst, Int.ofNat clipped, none)

/-- Linear destination position of a copy-loop state. -/
def CopySt.dstPos (s : CopySt) : Nat := 8 * s.dst_byte_offset + s.dst_bit_offset

/-- Linear source position of a copy-loop state. -/
def CopySt.srcPos (s : CopySt) : Nat := 8 * s.src_byte_offset + s.src_bit_offset

/-- `struct _bit_queue_t`.  `buffer = none` models a `NULL` buffer pointer. -/
structure BitQueue where
  buffer : Option (List Nat)
  r_bit_offset : Nat
  r_byte_offset : Nat
  w_bit_offset : Nat
  w_byte_offset : Nat
  written_bits : Nat
  buffer_size : Nat
  free_buff : Bool
deriving DecidableEq, Repr

/-- `bit_queue_base_init` (lines 106-130).  Allocation is assumed to succeed,
so only the `byte_count == 0` failure remains; `calloc` zeroes both the
structure and the backing buffer. -/
def bit_queue_base_init (byte_count : Nat) : Option BitQueue :=
  if byte_count = 0 then none
  else some {
    buffer := some (List.replicate byte_count 0)
    r_bit_offset := 0
    r_byte_offset := 0
    w_bit_offset := 0
    w_byte_offset := 0
    written_bits := 0
    buffer_size := byte_count
    free_buff := true }

/-- `bit_queue_init` (lines 132-151), wrapping a caller-supplied buffer. -/
def bit_queue_init (buffer : List Nat) (byte_count : Nat) (free_buff : Bool) : Option BitQueue :=
  if byte_count = 0 then none
  else some {
    buffer := some buffer
    r_bit_offset := 0
    r_byte_offset := 0
    w_bit_offset := 0
    w_byte_offset := 0
    written_bits := mul64 byte_count BITS_IN_BYTE
    buffer_size := byte_count
    free_buff := free_buff }

/-- `bit_queue_has_space` (lines 385-397), for a non-NULL queue. -/
def bit_queue_has_space (bq : BitQueue) (bit_count : Nat) : Bool :=
  decide (bit_count ≤ sub64 (mul64 bq.buffer_size BITS_IN_BYTE) bq.written_bits)

/-- `bit_queue_has_data` (lines 399-411), for a non-NULL queue. -/
def bit_queue_has_data (bq : BitQueue) (bit_count : Nat) : Bool :=
  decide (bit_count ≤ bq.written_bits)

/-- Loop state of `bit_queue_read_bits`: the caller's buffer and cursor, the
queue's read cursor and valid-bit count, the remaining bits, and the errno of
a failed `bit_queue_bit_buffer_copy` call (if any). -/
structure ReadLoopSt where
  buffer : List Nat
  b_byte_offset : Nat
  b_bit_offset : Nat
  r_byte_offset : Nat
  r_bit_offset : Nat
  written_bits : Nat
  r_bits : Nat
  failed : Option Cerrno
deriving DecidableEq, Repr

/-- Body of the do-while loop of `bit_queue_read_bits` (lines 185-209).
`b_bit_offset` and `r_bit_offset` are `uint8_t` in C, so the compound
assignments adding the copy's return value truncate modulo 256 before the
`/ 8` and `% 8` bookkeeping. -/
def readLoopBody (qbuf : List Nat) (buffer_size bq_buffer_size : Nat) (s : ReadLoopSt) :
    ReadLoopSt :=
  let c := bit_queue_bit_buffer_copy s.buffer qbuf s.b_byte_offset s.b_bit_offset buffer_size
    s.r_byte_offset s.r_bit_offset bq_buffer_size s.r_bits
  if c.2.1 = -1 then { s with failed := c.2.2 }
  else
    let ret := c.2.1.toNat
    let b_bit1 := (s.b_bit_offset + ret) % 256
    let r_bit1 := (s.r_bit_offset + ret) % 256
    let r_byte1 := s.r_byte_offset + r_bit1 / BITS_IN_BYTE
    { buffer := c.1
      b_byte_offset := s.b_byte_offset + b_bit1 / BITS_IN_BYTE
      b_bit_offset := b_bit1 % BITS_IN_BYTE
      r_byte_offset := if r_byte1 = bq_buffer_size then 0 else r_byte1
      r_bit_offset := if r_byte1 = bq_buffer_size then 0 else r_bit1 % BITS_IN_BYTE
      written_bits := s.written_bits - ret
      r_bits := s.r_bits - ret
      failed := none }

/-- The do-while loop of `bit_queue_read_bits`, with fuel; each successful
iteration moves at least one bit, so fuel `bit_count + 1` always suffices. -/
def readLoop (qbuf : List Nat) (buffer_size bq_buffer_size : Nat) : Nat → ReadLoopSt → ReadLoopSt
  | 0, s => s
  | fuel + 1, s =>
    let s1 := readLoopBody qbuf buffer_size bq_buffer_size s
    if s1.failed.isSome then s1
    else if s1.r_bits > 0 then readLoop qbuf buffer_size bq_buffer_size fuel s1
    else s1

/-- Result of a queue read/write: the updated queue, the updated caller
buffer, the `int` return value, and the errno set by the call. -/
structure OpOut where
  bq : BitQueue
  buffer : List Nat
  ret : Int
  err : Option Cerrno
deriving DecidableEq, Repr

/-- `bit_queue_read_bits` (lines 153-216).  The `bq == NULL` and
`buffer == NULL` checks have no counterpart here. -/
def bit_queue_read_bits (bq : BitQueue) (buffer : List Nat) (buffer_size bit_count : Nat) :
    OpOut :=
  if bit_count = 0 ∨ mul64 buffer_size BITS_IN_BYTE < bit_count then
    ⟨bq, buffer, -1, some Cerrno.EINVAL⟩
  else
    match bq.buffer with
    | none => ⟨bq, buffer, -1, some Cerrno.EINVAL⟩
    | some qbuf =>
      if bit_count > mul64 bq.buffer_size BITS_IN_BYTE then
        ⟨bq, buffer, -1, some Cerrno.EMSGSIZE⟩
      else if ¬ bit_queue_has_data bq bit_count then
        ⟨bq, buffer, -1, some Cerrno.EAGAIN⟩
      else
        let f := readLoop qbuf buffer_size bq.buffer_size (bit_count + 1)
          ⟨buffer, 0, 0, bq.r_byte_offset, bq.r_bit_offset, bq.written_bits, bit_count, none⟩
        let bq1 := { bq with
          r_byte_offset := f.r_byte_offset
          r_bit_offset := f.r_bit_offset
          written_bits := f.written_bits }
        match f.failed with
        | some e => ⟨bq1, f.buffer, -1, some e⟩
        | none => ⟨bq1, f.buffer, Int.ofNat bit_count, none⟩

/-- Loop state of `bit_queue_write_bits`. -/
structure WriteLoopSt where
  qbuf : List Nat
  b_byte_offset : Nat
  b_bit_offset : Nat
  w_byte_offset : Nat
  w_bit_offset : Nat
  written_bits : Nat
  r_bits : Nat
  failed : Option Cerrno
deriving DecidableEq, Repr

/-- Body of the do-while loop of `bit_queue_write_bits` (lines 250-274).
Note the wraparound branch (C lines 266-271): it assigns `w_byte_offset = 0`
twice and leaves `w_bit_offset` untouched, unlike the read path. -/
def writeLoopBody (buffer : List Nat) (buffer_size bq_buffer_size : Nat) (s : WriteLoopSt) :
    WriteLoopSt :=
  let c := bit_queue_bit_buffer_copy s.qbuf buffer s.w_byte_offset s.w_bit_offset bq_buffer_size
    s.b_byte_offset s.b_bit_offset buffer_size s.r_bits
  if c.2.1 = -1 then { s with failed := c.2.2 }
  else
    let ret := c.2.1.toNat
    let b_bit1 := (s.b_bit_offset + ret) % 256
    let w_bit1 := (s.w_bit_offset + ret) % 256
    let w_byte1 := s.w_byte_offset + w_bit1 / BITS_IN_BYTE
    { qbuf := c.1
      b_byte_offset := s.b_byte_offset + b_bit1 / BITS_IN_BYTE
      b_bit_offset := b_bit1 % BITS_IN_BYTE
      w_byte_offset := if w_byte1 = bq_buffer_size then 0 else w_byte1
      w_bit_offset := w_bit1 % BITS_IN_BYTE
      written_bits := s.written_bits + ret
      r_bits := s.r_bits - ret
      failed := none }

/-- The do-while loop of `bit_queue_write_bits`, with fuel. -/
def writeLoop (buffer : List Nat) (buffer_size bq_buffer_size : Nat) :
    Nat → WriteLoopSt → WriteLoopSt
  | 0, s => s
  | fuel + 1, s =>
    let s1 := writeLoopBody buffer buffer_size bq_buffer_size s
    if s1.failed.isSome then s1
    else if s1.r_bits > 0 then writeLoop buffer buffer_size bq_buffer_size fuel s1
    else s1

/-- `bit_queue_write_bits` (lines 218-281). -/
def bit_queue_write_bits (bq : BitQueue) (buffer : List Nat) (buffer_size bit_count : Nat) :
    OpOut :=
  if bit_count = 0 ∨ mul64 buffer_size BITS_IN_BYTE < bit_count then
    ⟨bq, buffer, -1, some Cerrno.EINVAL⟩
  else
    match bq.buffer with
    | none => ⟨bq, buffer, -1, some Cerrno.EINVAL⟩
    | some qbuf =>
      if bit_count > mul64 bq.buffer_size BITS_IN_BYTE then
        ⟨bq, buffer, -1, some Cerrno.EMSGSIZE⟩
      else if ¬ bit_queue_has_space bq bit_count then
        ⟨bq, buffer, -1, some Cerrno.EAGAIN⟩
      else
        let f := writeLoop buffer buffer_size bq.buffer_size (bit_count + 1)
          ⟨qbuf, 0, 0, bq.w_byte_offset, bq.w_bit_offset, bq.written_bits, bit_count, none⟩
        let bq1 := { bq with
          buffer := some f.qbuf
          w_byte_offset := f.w_byte_offset
          w_bit_offset := f.w_bit_offset
          written_bits := f.written_bits }
        match f.failed with
        | some e => ⟨bq1, buffer, -1, some e⟩
        | none => ⟨bq1, buffer, Int.ofNat bit_count, none⟩

/-- Result of `bit_queue_destroy`: the queue fields after the call, the
return value, the errno, and whether the backing buffer was freed by this
call.  On success C also frees the queue structure itself; the returned `bq`
records the fields as last written (in particular `buffer = none`), which is
exactly what the double-destroy guard at line 290 inspects. -/
structure DestroyOut where
  bq : BitQueue
  ret : Int
  err : Option Cerrno
  freed_buffer : Bool
deriving DecidableEq, Repr

/-- `bit_queue_destroy` (lines 283-305), for a non-NULL `bq`. -/
def bit_queue_destroy (bq : BitQueue) : DestroyOut :=
  match bq.buffer with
  | none => ⟨bq, -1, some Cerrno.EINVAL, false⟩
  | some _ => ⟨{ bq with buffer := none }, 0, none, bq.free_buff⟩

/-- Strong state invariant used for the reachability induction: cursor
bounds, a `size_t`-representable buffer size, and a valid-bit count within
the (wrapped) bit capacity. -/
def BitQueue.InvStrong (bq : BitQueue) : Prop :=
  bq.buffer_size < W64 ∧
  bq.r_byte_offset < bq.buffer_size ∧ bq.r_bit_offset < 8 ∧
  bq.w_byte_offset < bq.buffer_size ∧ bq.w_bit_offset < 8 ∧
  bq.written_bits ≤ mul64 bq.buffer_size BITS_IN_BYTE

/-- Queue states reachable from either constructor through any sequence of
`bit_queue_write_bits` / `bit_queue_read_bits` calls (successful or
failing).  The `byte_count < W64` premises state that the C `size_t`
argument is representable. -/
inductive Reachable : BitQueue → Prop where
  | base : ∀ (byte_count : Nat) (bq : BitQueue), byte_count < W64 →
      bit_queue_base_init byte_count = some bq → Reachable bq
  | wrap : ∀ (buffer : List Nat) (byte_count : Nat) (free_buff : Bool) (bq : BitQueue),
      byte_count < W64 → bit_queue_init buffer byte_count free_buff = some bq → Reachable bq
  | write : ∀ (bq : BitQueue) (buffer : List Nat) (buffer_size bit_count : Nat),
      Reachable bq → Reachable (bit_queue_write_bits bq buffer buffer_size bit_count).bq
  | read : ∀ (bq : BitQueue) (buffer : List Nat) (buffer_size bit_count : Nat),
      Reachable bq → Reachable (bit_queue_read_bits bq buffer buffer_size bit_count).bq

/-! ### Arithmetic and list helpers -/

theorem W64_pos : 0 < W64 := by
  unfold W64
  positivity

theorem mul64_eq_mul (a b : Nat) (h : a * b < W64) : mul64 a b = a * b :=
  Nat.mod_eq_of_lt h

theorem sub64_self (a : Nat) : sub64 a a = 0 := by
  unfold sub64
  have h1 : a % W64 ≤ a := Nat.mod_le a W64
  have h2 : a % W64 < W64 := Nat.mod_lt a W64_pos
  have h3 : a + (W64 - a % W64) = (a - a % W64) + W64 := by omega
  rw [h3, Nat.add_mod_right]
  have h4 : a - a % W64 = W64 * (a / W64) := by
    have := Nat.div_add_mod a W64
    omega
  rw [h4]
  exact Nat.mul_mod_right W64 (a / W64)

theorem sub64_eq_sub (a b : Nat) (ha : a < W64) (hb : b ≤ a) : sub64 a b = a - b := by
  unfold sub64
  have hm : b % W64 = b := Nat.mod_eq_of_lt (lt_of_le_of_lt hb ha)
  rw [hm]
  have h3 : a + (W64 - b) = (a - b) + W64 := by omega
  rw [h3, Nat.add_mod_right]
  exact Nat.mod_eq_of_lt (by omega)

theorem sub64_zero_left (b : Nat) (hb : 0 < b) (hb2 : b < W64) : sub64 0 b = W64 - b := by
  unfold sub64
  have hm : b % W64 = b := Nat.mod_eq_of_lt hb2
  rw [hm]
  rw [Nat.zero_add]
  exact Nat.mod_eq_of_lt (by omega)

theorem getD_set_self (l : List Nat) (i v : Nat) (h : i < l.length) :
    (l.set i v).getD i 0 = v := by
  simp [List.getD_eq_getElem?_getD, List.getElem?_set_self, h]

theorem getD_set_ne (l : List Nat) (i j v : Nat) (h : i ≠ j) :
    (l.set i v).getD j 0 = l.getD j 0 := by
  simp [List.getD_eq_getElem?_getD, List.getElem?_set_ne h]

theorem set_getD_self (l : List Nat) (i : Nat) (h : i < l.length) :
    l.set i (l.getD i 0) = l := by
  apply List.ext_getElem
  · simp
  · intro n h1 h2
    by_cases hn : n = i
    · subst hn
      rw [List.getElem_set_self]
      simp [List.getD_eq_getElem?_getD, List.getElem?_eq_getElem, h]
    · rw [List.getElem_set_ne (by omega)]

theorem mem_set_lt (l : List Nat) (i v c : Nat) (hl : ∀ b ∈ l, b < c) (hv : v < c) :
    ∀ b ∈ l.set i v, b < c := by
  intro b hb
  rcases List.mem_or_eq_of_mem_set hb with h | h
  · exact hl b h
  · omega

theorem CREATE_BYTE_MASK_LSB_eq (o : Nat) (h : o ≤ 8) :
    CREATE_BYTE_MASK_LSB o = 2 ^ (8 - o) - 1 := by
  interval_cases o <;> rfl


theorem copyStep_eq (src : List Nat) (s : CopySt)
    (hd : s.dst_bit_offset < 8) (hs : s.src_bit_offset < 8) :
    copyStep src s =
    { dst := s.dst.set s.dst_byte_offset ((s.dst.getD s.dst_byte_offset 0 |||
        ((src.getD s.src_byte_offset 0 &&&
          ((2 ^ min s.r_bits (min (8 - s.dst_bit_offset) (8 - s.src_bit_offset)) - 1)
            <<< s.src_bit_offset)) >>> s.src_bit_offset) <<< s.dst_bit_offset) % 256)
      dst_byte_offset :=
        if s.dst_bit_offset + min s.r_bits (min (8 - s.dst_bit_offset) (8 - s.src_bit_offset)) = 8
        then s.dst_byte_offset + 1 else s.dst_byte_offset
      dst_bit_offset :=
        if s.dst_bit_offset + min s.r_bits (min (8 - s.dst_bit_offset) (8 - s.src_bit_offset)) = 8
        then 0
        else s.dst_bit_offset + min s.r_bits (min (8 - s.dst_bit_offset) (8 - s.src_bit_offset))
      src_byte_offset :=
        if s.src_bit_offset + min s.r_bits (min (8 - s.dst_bit_offset) (8 - s.src_bit_offset)) = 8
        then s.src_byte_offset + 1 else s.src_byte_offset
      src_bit_offset :=
        if s.src_bit_offset + min s.r_bits (min (8 - s.dst_bit_offset) (8 - s.src_bit_offset)) = 8
        then 0
        else s.src_bit_offset + min s.r_bits (min (8 - s.dst_bit_offset) (8 - s.src_bit_offset))
      r_bits := s.r_bits - min s.r_bits (min (8 - s.dst_bit_offset) (8 - s.src_bit_offset)) } := by
  have ht8 : min s.r_bits (min (8 - s.dst_bit_offset) (8 - s.src_bit_offset)) ≤ 8 := by omega
  have hofs :
      (if s.r_bits + s.dst_bit_offset ≤ 8 ∧ s.r_bits ≤ 8 - s.src_bit_offset then
        8 - s.r_bits
      else if s.dst_bit_offset ≥ s.src_bit_offset then s.dst_bit_offset
      else s.src_bit_offset) =
      8 - min s.r_bits (min (8 - s.dst_bit_offset) (8 - s.src_bit_offset)) := by
    split_ifs with h1 h2 <;> omega
  have hsub : 8 - (8 - min s.r_bits (min (8 - s.dst_bit_offset) (8 - s.src_bit_offset))) =
      min s.r_bits (min (8 - s.dst_bit_offset) (8 - s.src_bit_offset)) :=
    Nat.sub_sub_self ht8
  have hmask : CREATE_BYTE_MASK_LSB
      (8 - min s.r_bits (min (8 - s.dst_bit_offset) (8 - s.src_bit_offset))) =
      2 ^ min s.r_bits (min (8 - s.dst_bit_offset) (8 - s.src_bit_offset)) - 1 := by
    rw [CREATE_BYTE_MASK_LSB_eq _ (by omega), hsub]
  have hmod : (s.dst_bit_offset +
      min s.r_bits (min (8 - s.dst_bit_offset) (8 - s.src_bit_offset))) % 256 =
      s.dst_bit_offset + min s.r_bits (min (8 - s.dst_bit_offset) (8 - s.src_bit_offset)) :=
    Nat.mod_eq_of_lt (by omega)
  simp only [copyStep, BITS_IN_BYTE]
  rw [hofs, hsub, hmask, hmod]

theorem testBit_copied_value (srcB sBit dBit t j : Nat) :
    ((((srcB &&& ((2 ^ t - 1) <<< sBit)) >>> sBit) <<< dBit)).testBit j =
    (decide (dBit ≤ j ∧ j - dBit < t) && srcB.testBit (sBit + (j - dBit))) := by
  rw [Nat.testBit_shiftLeft, Nat.testBit_shiftRight, Nat.testBit_and, Nat.testBit_shiftLeft,
    Nat.testBit_two_pow_sub_one, Nat.add_sub_cancel_left]
  by_cases h1 : dBit ≤ j
  · by_cases h2 : j - dBit < t
    · simp [h1, h2, Nat.le_add_right]
    · simp [h1, h2]
  · simp [h1]

theorem copyStep_bufBit (src : List Nat) (s : CopySt)
    (hd : s.dst_bit_offset < 8) (hs : s.src_bit_offset < 8)
    (hbound : s.dstPos + s.r_bits ≤ 8 * s.dst.length) :
    ∀ p, bufBit (copyStep src s).dst p =
      (bufBit s.dst p ||
        (decide (s.dstPos ≤ p ∧ p < s.dstPos +
            min s.r_bits (min (8 - s.dst_bit_offset) (8 - s.src_bit_offset))) &&
          bufBit src (s.srcPos + (p - s.dstPos)))) := by
  intro p
  have hcd := copyStep_eq src s hd hs
  set t := min s.r_bits (min (8 - s.dst_bit_offset) (8 - s.src_bit_offset)) with htdef
  have ht1 : t ≤ s.r_bits := by omega
  have ht2 : s.dst_bit_offset + t ≤ 8 := by omega
  have ht3 : s.src_bit_offset + t ≤ 8 := by omega
  simp only [CopySt.dstPos, CopySt.srcPos] at hbound ⊢
  simp only [hcd, bufBit]
  by_cases hp : p / 8 = s.dst_byte_offset
  · by_cases hlen : s.dst_byte_offset < s.dst.length
    · rw [hp, getD_set_self _ _ _ hlen]
      have h256 : (256 : Nat) = 2 ^ 8 := rfl
      rw [h256, Nat.testBit_mod_two_pow, Nat.testBit_or, testBit_copied_value]
      have hm8 : p % 8 < 8 := Nat.mod_lt p (by omega)
      have hdm : decide (p % 8 < 8) = true := by simp [hm8]
      rw [hdm, Bool.true_and]
      by_cases hin : 8 * s.dst_byte_offset + s.dst_bit_offset ≤ p ∧
          p < 8 * s.dst_byte_offset + s.dst_bit_offset + t
      · have hin1 : s.dst_bit_offset ≤ p % 8 ∧ p % 8 - s.dst_bit_offset < t := by omega
        have hsrc : (8 * s.src_byte_offset + s.src_bit_offset +
            (p - (8 * s.dst_byte_offset + s.dst_bit_offset))) / 8 = s.src_byte_offset := by omega
        have hsrc2 : (8 * s.src_byte_offset + s.src_bit_offset +
            (p - (8 * s.dst_byte_offset + s.dst_bit_offset))) % 8 =
            s.src_bit_offset + (p % 8 - s.dst_bit_offset) := by omega
        rw [hsrc, hsrc2]
        simp only [hin, hin1, decide_eq_true_eq, and_self, decide_True, Bool.true_and]
      · have hin1 : ¬ (s.dst_bit_offset ≤ p % 8 ∧ p % 8 - s.dst_bit_offset < t) := by omega
        simp only [hin, hin1, decide_False, Bool.false_and, Bool.and_false, Bool.or_false]
    · have hoob : s.dst.set s.dst_byte_offset ((s.dst.getD s.dst_byte_offset 0 |||
          ((src.getD s.src_byte_offset 0 &&& ((2 ^ t - 1) <<< s.src_bit_offset)) >>>
            s.src_bit_offset) <<< s.dst_bit_offset) % 256) = s.dst :=
        List.set_eq_of_length_le (by omega)
      rw [hoob]
      have hnin : ¬ (8 * s.dst_byte_offset + s.dst_bit_offset ≤ p ∧
          p < 8 * s.dst_byte_offset + s.dst_bit_offset + t) := by omega
      simp only [hnin, decide_False, Bool.false_and, Bool.or_false]
  · rw [getD_set_ne _ _ _ _ (fun h => hp h.symm)]
    have hnin : ¬ (8 * s.dst_byte_offset + s.dst_bit_offset ≤ p ∧
        p < 8 * s.dst_byte_offset + s.dst_bit_offset + t) := by omega
    simp only [hnin, decide_False, Bool.false_and, Bool.or_false]

theorem getD_lt_of_wf (l : List Nat) (i c : Nat) (h : ∀ b ∈ l, b < c) (hc : 0 < c) :
    l.getD i 0 < c := by
  by_cases hi : i < l.length
  · have : l.getD i 0 = l[i] := by
      simp [List.getD_eq_getElem?_getD, List.getElem?_eq_getElem, hi]
    rw [this]
    exact h _ (List.getElem_mem hi)
  · have : l.getD i 0 = 0 := by
      simp [List.getD_eq_getElem?_getD, List.getElem?_eq_none (by omega : l.length ≤ i)]
    omega

theorem copyStep_facts (src : List Nat) (s : CopySt)
    (hd : s.dst_bit_offset < 8) (hs : s.src_bit_offset < 8) :
    (copyStep src s).r_bits =
      s.r_bits - min s.r_bits (min (8 - s.dst_bit_offset) (8 - s.src_bit_offset)) ∧
    (copyStep src s).dst.length = s.dst.length ∧
    (copyStep src s).dst_bit_offset < 8 ∧
    (copyStep src s).src_bit_offset < 8 ∧
    (copyStep src s).dstPos =
      s.dstPos + min s.r_bits (min (8 - s.dst_bit_offset) (8 - s.src_bit_offset)) ∧
    (copyStep src s).srcPos =
      s.srcPos + min s.r_bits (min (8 - s.dst_bit_offset) (8 - s.src_bit_offset)) ∧
    s.dst_byte_offset ≤ (copyStep src s).dst_byte_offset ∧
    ((∀ b ∈ s.dst, b < 256) → ∀ b ∈ (copyStep src s).dst, b < 256) ∧
    (∀ i, i ≠ s.dst_byte_offset → (copyStep src s).dst.getD i 0 = s.dst.getD i 0) ∧
    ((∀ b ∈ s.dst, b < 256) → s.r_bits = 0 → (copyStep src s).dst = s.dst) := by
  rw [copyStep_eq src s hd hs]
  set t := min s.r_bits (min (8 - s.dst_bit_offset) (8 - s.src_bit_offset)) with htdef
  have ht1 : t ≤ s.r_bits := by omega
  have ht2 : s.dst_bit_offset + t ≤ 8 := by omega
  have ht3 : s.src_bit_offset + t ≤ 8 := by omega
  refine ⟨rfl, by simp, ?_, ?_, ?_, ?_, ?_, ?_, ?_, ?_⟩
  · simp only
    split_ifs <;> omega
  · simp only
    split_ifs <;> omega
  · simp only [CopySt.dstPos]
    split_ifs with h <;> omega
  · simp only [CopySt.srcPos]
    split_ifs with h <;> omega
  · simp only
    split_ifs <;> omega
  · intro hwf
    simp only
    exact mem_set_lt _ _ _ _ hwf (Nat.mod_lt _ (by omega))
  · intro i hi
    simp only
    exact getD_set_ne _ _ _ _ (fun h => hi h.symm)
  · intro hwf hz
    simp only
    have htz : t = 0 := by omega
    rw [htz]
    simp only [pow_zero, Nat.sub_self, Nat.zero_shiftLeft, Nat.and_zero, Nat.zero_shiftRight,
      Nat.or_zero]
    have hold : s.dst.getD s.dst_byte_offset 0 % 256 = s.dst.getD s.dst_byte_offset 0 :=
      Nat.mod_eq_of_lt (getD_lt_of_wf _ _ _ hwf (by omega))
    rw [hold]
    by_cases hlen : s.dst_byte_offset < s.dst.length
    · exact set_getD_self _ _ hlen
    · exact List.set_eq_of_length_le (by omega)

theorem copyLoop_spec (src : List Nat) : ∀ (fuel : Nat) (s : CopySt),
    s.dst_bit_offset < 8 → s.src_bit_offset < 8 → s.r_bits ≤ fuel →
    s.dstPos + s.r_bits ≤ 8 * s.dst.length →
    (copyLoop src fuel s).r_bits = 0 ∧
    (copyLoop src fuel s).dst.length = s.dst.length ∧
    (copyLoop src fuel s).dst_bit_offset < 8 ∧
    (copyLoop src fuel s).src_bit_offset < 8 ∧
    (copyLoop src fuel s).dstPos = s.dstPos + s.r_bits ∧
    (copyLoop src fuel s).srcPos = s.srcPos + s.r_bits ∧
    (∀ p, bufBit (copyLoop src fuel s).dst p =
      (bufBit s.dst p || (decide (s.dstPos ≤ p ∧ p < s.dstPos + s.r_bits) &&
        bufBit src (s.srcPos + (p - s.dstPos))))) ∧
    ((∀ b ∈ s.dst, b < 256) → ∀ b ∈ (copyLoop src fuel s).dst, b < 256) ∧
    ((∀ b ∈ s.dst, b < 256) →
      ∀ i, (i < s.dst_byte_offset ∨ s.dstPos + s.r_bits ≤ 8 * i) →
        (copyLoop src fuel s).dst.getD i 0 = s.dst.getD i 0) := by
  intro fuel
  induction fuel with
  | zero =>
    intro s hd hs hf hb
    have hz : s.r_bits = 0 := by omega
    have hid : copyLoop src 0 s = s := rfl
    rw [hid]
    refine ⟨hz, rfl, hd, hs, by omega, by omega, ?_, fun h => h, fun _ _ _ => rfl⟩
    intro p
    have hnin : ¬ (s.dstPos ≤ p ∧ p < s.dstPos + s.r_bits) := by omega
    simp [hnin]
  | succ fuel ih =>
    intro s hd hs hf hb
    obtain ⟨f1, f2, f3, f4, f5, f6, f7, f8, f9, f10⟩ := copyStep_facts src s hd hs
    set t := min s.r_bits (min (8 - s.dst_bit_offset) (8 - s.src_bit_offset)) with htdef
    have ht1 : t ≤ s.r_bits := by omega
    have hdp : s.dstPos = 8 * s.dst_byte_offset + s.dst_bit_offset := rfl
    have hbits := copyStep_bufBit src s hd hs hb
    by_cases hpos : (copyStep src s).r_bits > 0
    · have hred : copyLoop src (fuel + 1) s = copyLoop src fuel (copyStep src s) := by
        simp only [copyLoop]
        rw [if_pos hpos]
      have htge1 : 1 ≤ t := by omega
      have hfuel1 : (copyStep src s).r_bits ≤ fuel := by omega
      have hb1 : (copyStep src s).dstPos + (copyStep src s).r_bits ≤
          8 * (copyStep src s).dst.length := by
        rw [f5, f1, f2]
        omega
      obtain ⟨g1, g2, g3, g4, g5, g6, g7, g8, g9⟩ := ih (copyStep src s) f3 f4 hfuel1 hb1
      rw [hred]
      refine ⟨g1, by rw [g2, f2], g3, g4, ?_, ?_, ?_, fun hwf => g8 (f8 hwf), ?_⟩
      · rw [g5, f5, f1]
        omega
      · rw [g6, f6, f1]
        omega
      · intro p
        rw [g7 p, hbits p, f5, f6, f1]
        rcases lt_or_ge p s.dstPos with hc1 | hc1
        · have e1 : ¬ (s.dstPos ≤ p ∧ p < s.dstPos + t) := by omega
          have e2 : ¬ (s.dstPos + t ≤ p ∧ p < s.dstPos + t + (s.r_bits - t)) := by omega
          have e3 : ¬ (s.dstPos ≤ p ∧ p < s.dstPos + s.r_bits) := by omega
          simp [e1, e2, e3]
        · rcases lt_or_ge p (s.dstPos + t) with hc2 | hc2
          · have e1 : s.dstPos ≤ p ∧ p < s.dstPos + t := ⟨hc1, hc2⟩
            have e2 : ¬ (s.dstPos + t ≤ p ∧ p < s.dstPos + t + (s.r_bits - t)) := by omega
            have e3 : s.dstPos ≤ p ∧ p < s.dstPos + s.r_bits := by omega
            simp [e1, e2, e3]
          · rcases lt_or_ge p (s.dstPos + s.r_bits) with hc3 | hc3
            · have e1 : ¬ (s.dstPos ≤ p ∧ p < s.dstPos + t) := by omega
              have e2 : s.dstPos + t ≤ p ∧ p < s.dstPos + t + (s.r_bits - t) := by omega
              have e3 : s.dstPos ≤ p ∧ p < s.dstPos + s.r_bits := by omega
              have e4 : s.srcPos + t + (p - (s.dstPos + t)) = s.srcPos + (p - s.dstPos) := by
                omega
              have e5 : ¬ (p < s.dstPos +
                  min s.r_bits (min (8 - s.dst_bit_offset) (8 - s.src_bit_offset))) := by omega
              rw [e4]
              simp [e1, e2, e3, e5, Bool.or_assoc]
            · have e1 : ¬ (s.dstPos ≤ p ∧ p < s.dstPos + t) := by omega
              have e2 : ¬ (s.dstPos + t ≤ p ∧ p < s.dstPos + t + (s.r_bits - t)) := by omega
              have e3 : ¬ (s.dstPos ≤ p ∧ p < s.dstPos + s.r_bits) := by omega
              simp [e1, e2, e3]
      · intro hwf i hi
        have hstep : (copyLoop src fuel (copyStep src s)).dst.getD i 0 =
            (copyStep src s).dst.getD i 0 := by
          apply g9 (f8 hwf) i
          rcases hi with hi | hi
          · exact Or.inl (by omega)
          · right
            rw [f5, f1]
            omega
        rw [hstep]
        apply f9 i
        rcases hi with hi | hi
        · omega
        · omega
    · have hred : copyLoop src (fuel + 1) s = copyStep src s := by
        simp only [copyLoop]
        rw [if_neg hpos]
      have htr : t = s.r_bits := by omega
      rw [hred]
      refine ⟨by omega, f2, f3, f4, by rw [f5, htr], by rw [f6, htr], ?_, f8, ?_⟩
      · intro p
        have htr2 : min s.r_bits (min (8 - s.dst_bit_offset) (8 - s.src_bit_offset)) =
            s.r_bits := by omega
        rw [hbits p, htr2]
      · intro hwf i hi
        rcases Nat.eq_zero_or_pos s.r_bits with hz | hz
        · rw [f10 hwf hz]
        · apply f9 i
          rcases hi with hi | hi
          · omega
          · omega

theorem dst_space_expr_eq (dSize dByte dBit : Nat) (hby : dByte ≤ dSize) (hB : dBit < 8)
    (hcorner : dByte < dSize ∨ dBit = 0) (hsize : 8 * dSize < W64) :
    sub64 (mul64 (sub64 dSize dByte) BITS_IN_BYTE) dBit = 8 * (dSize - dByte) - dBit := by
  have hW : dSize < W64 := by omega
  by_cases hlt : dByte < dSize
  · rw [sub64_eq_sub dSize dByte hW (by omega)]
    simp only [BITS_IN_BYTE]
    rw [mul64_eq_mul (dSize - dByte) 8 (by omega)]
    rw [sub64_eq_sub ((dSize - dByte) * 8) dBit (by omega) (by omega)]
    omega
  · have hEq : dByte = dSize := by omega
    have hz : dBit = 0 := by
      rcases hcorner with h | h
      · omega
      · exact h
    subst hEq hz
    rw [sub64_self]
    simp only [BITS_IN_BYTE]
    have h0 : mul64 0 8 = 0 := by simp [mul64]
    rw [h0, sub64_self 0]
    omega

theorem bit_buffer_copy_normal_eq (dst src : List Nat)
    (dByte dBit dSize sByte sBit sSize cnt : Nat)
    (hcnt : 0 < cnt)
    (hdB : dBit < 8) (hsB : sBit < 8)
    (hdby : dByte ≤ dSize) (hsby : sByte ≤ sSize)
    (hcorner_d : dByte < dSize ∨ dBit = 0)
    (hcorner_s : sByte < sSize ∨ sBit = 0)
    (hsize_d : 8 * dSize < W64) (hsize_s : 8 * sSize < W64)
    (hcnt2 : cnt ≤ 8 * sSize)
    (hspace : cnt ≤ 8 * (dSize - dByte) - dBit) :
    bit_queue_bit_buffer_copy dst src dByte dBit dSize sByte sBit sSize cnt =
    ((copyLoop src (min cnt (8 * (sSize - sByte) - sBit) + 1)
        ⟨dst, dByte, dBit, sByte, sBit, min cnt (8 * (sSize - sByte) - sBit)⟩).dst,
      Int.ofNat (min cnt (8 * (sSize - sByte) - sBit)), none) := by
  have hd_expr := dst_space_expr_eq dSize dByte dBit hdby hdB hcorner_d hsize_d
  have hs_expr := dst_space_expr_eq sSize sByte sBit hsby hsB hcorner_s hsize_s
  have hc1 : ¬ (cnt = 0 ∨ dSize < dByte ∨ sSize < sByte ∨
      dBit ≥ BITS_IN_BYTE ∨ sBit ≥ BITS_IN_BYTE ∨ mul64 sSize BITS_IN_BYTE < cnt) := by
    simp only [BITS_IN_BYTE]
    push_neg
    refine ⟨by omega, by omega, by omega, by omega, by omega, ?_⟩
    rw [mul64_eq_mul sSize 8 (by omega)]
    omega
  have hc2 : ¬ (sub64 (mul64 (sub64 dSize dByte) BITS_IN_BYTE) dBit < cnt) := by
    rw [hd_expr]
    omega
  rw [bit_queue_bit_buffer_copy, if_neg hc1, if_neg hc2]
  simp only [hs_expr]
  have hk : (if cnt > 8 * (sSize - sByte) - sBit then 8 * (sSize - sByte) - sBit else cnt) =
      min cnt (8 * (sSize - sByte) - sBit) := by
    split_ifs <;> omega
  rw [hk]

/-! ### Claims -/

/-- Claim C1, evaluated at a failing input (code bug).  The round-trip
property fails: on a fresh 33-byte queue, writing 256 zero bits and then 8
one bits (a partition of a 264-bit sequence S into nonzero chunks) followed
by reading all 264 bits back into a pre-cleared destination yields a first
bit `true`, although bit 0 of S is `false`.  The cause is the `uint8_t`
truncation in `bq->w_bit_offset += ret_val` (bit_queue.c line 263): after a
256-bit transfer the write cursor does not advance, so the second chunk is
OR-ed over the first. -/
theorem C1_code_bug_eval :
    ((bit_queue_base_init 33).map fun q =>
      let w1 := bit_queue_write_bits q (List.replicate 32 0) 32 256
      let w2 := bit_queue_write_bits w1.bq [0xFF] 1 8
      let r := bit_queue_read_bits w2.bq (List.replicate 33 0) 33 264
      (w1.ret, w1.bq.w_byte_offset, w1.bq.w_bit_offset, w2.ret, r.ret, bufBit r.buffer 0)) =
      some (256, 0, 0, 8, 264, true) ∧
    bufBit (List.replicate 32 0) 0 = false := by
  decide

/-- Claim C2, evaluated at a failing input (code bug).  On a 1-byte queue
with write cursor at bit offset 4 and 8 free bits (reached by writing and
reading 4 bits), a write of 8 bits satisfies every precondition listed in the
claim (the `sub64`/`mul64` term below evaluates the free-bit count to 8), yet
returns `-1` with errno `EMSGSIZE` and leaves the queue unchanged: the
transfer would have to cross the end of the ring buffer, and
`bit_queue_bit_buffer_copy` rejects a destination shorter than the request
instead of wrapping (bit_queue.c lines 325-329). -/
theorem C2_code_bug_eval :
    ((bit_queue_base_init 1).map fun q =>
      let w1 := bit_queue_write_bits q [0x0F] 1 4
      let r1 := bit_queue_read_bits w1.bq [0] 1 4
      let w2 := bit_queue_write_bits r1.bq [0xFF] 1 8
      (w1.ret, r1.ret, r1.bq.written_bits,
       sub64 (mul64 r1.bq.buffer_size 8) r1.bq.written_bits,
       w2.ret, w2.err, decide (w2.bq = r1.bq))) =
    some (4, 4, 0, 8, -1, some Cerrno.EMSGSIZE, true) := by
  rfl

/-- Claim C3, counterexample.  In the claimed example scenario, the 1-bit
read following the 5-bit read does not yield 0: the destination buffer after
that read is `[1, 0]`, not `[0, 0]` (bit 5 of `0xAA` is 1 in the LSB-first
convention of the code). -/
theorem C3_counterexample :
    ((bit_queue_base_init 2).map fun q =>
      let w := bit_queue_write_bits q [0xAA, 0xAA] 2 16
      let r1 := bit_queue_read_bits w.bq [0, 0] 2 5
      let r2 := bit_queue_read_bits r1.bq [0, 0] 2 1
      r2.buffer) ≠ some [0, 0] := by
  decide

/-- Claim C3 as amended: the wrap-constructed queue over `0xAA 0xAA` yields
byte `0xAA` = 170 on an 8-bit read; the fresh owned queue written with those
16 bits yields 10 (the lowest 5 bits of `0xAA`) on a 5-bit read, and the
following 1-bit read yields 1 (the 6th bit of `0xAA`, LSB first), not 0. -/
theorem C3_theorem :
    ((bit_queue_init [0xAA, 0xAA] 2 false).map fun q =>
      let r := bit_queue_read_bits q [0, 0] 2 8
      (r.ret, r.buffer)) = some (8, [170, 0]) ∧
    ((bit_queue_base_init 2).map fun q =>
      let w := bit_queue_write_bits q [0xAA, 0xAA] 2 16
      let r1 := bit_queue_read_bits w.bq [0, 0] 2 5
      let r2 := bit_queue_read_bits r1.bq [0, 0] 2 1
      (w.ret, r1.ret, r1.buffer, r2.ret, r2.buffer)) = some (16, 5, [10, 0], 1, [1, 0]) := by
  decide

theorem W64_val : W64 = 18446744073709551616 := by
  norm_num [W64]

/-- Claim C6, counterexample.  A call with destination byte offset equal to
the destination size (1) and bit offset 1 passes every validity check; the
destination cannot physically hold even one bit there, yet the call does not
fail with `EMSGSIZE`: the unsigned remaining-capacity expression wraps, the
call "succeeds" with return value 1 and errno untouched. -/
theorem C6_counterexample :
    bit_queue_bit_buffer_copy [0] [255] 1 1 1 0 0 1 1 = ([0], 1, none) := by
  decide

/-- Claim C6 as amended: for calls whose start positions lie genuinely inside
the buffers (byte offset strictly below the size, or bit offset zero — the
regime in which the unsigned remaining-capacity expressions do not wrap):
destination too small means `EMSGSIZE` with nothing written; a source
holding fewer than `bit_count` bits clips the copy to the available count,
returned as success; and a returned count below the request implies source
clipping, never destination space. -/
theorem C6_theorem (dst src : List Nat) (dByte dBit dSize sByte sBit sSize cnt : Nat)
    (hcnt : 0 < cnt) (hdB : dBit < 8) (hsB : sBit < 8)
    (hdby : dByte ≤ dSize) (hsby : sByte ≤ sSize)
    (hcorner_d : dByte < dSize ∨ dBit = 0)
    (hcorner_s : sByte < sSize ∨ sBit = 0)
    (hsize_d : 8 * dSize < W64) (hsize_s : 8 * sSize < W64)
    (hcnt2 : cnt ≤ 8 * sSize) :
    (8 * (dSize - dByte) - dBit < cnt →
      bit_queue_bit_buffer_copy dst src dByte dBit dSize sByte sBit sSize cnt =
        (dst, -1, some Cerrno.EMSGSIZE)) ∧
    (cnt ≤ 8 * (dSize - dByte) - dBit → 8 * (sSize - sByte) - sBit < cnt →
      (bit_queue_bit_buffer_copy dst src dByte dBit dSize sByte sBit sSize cnt).2.1 =
        Int.ofNat (8 * (sSize - sByte) - sBit) ∧
      (bit_queue_bit_buffer_copy dst src dByte dBit dSize sByte sBit sSize cnt).2.2 = none) ∧
    (cnt ≤ 8 * (dSize - dByte) - dBit →
      ∀ n : Nat, (bit_queue_bit_buffer_copy dst src dByte dBit dSize sByte sBit sSize cnt).2.1 =
        Int.ofNat n → n < cnt →
        n = 8 * (sSize - sByte) - sBit ∧ 8 * (sSize - sByte) - sBit < cnt) := by
  have hd_expr := dst_space_expr_eq dSize dByte dBit hdby hdB hcorner_d hsize_d
  refine ⟨?_, ?_, ?_⟩
  · intro hsmall
    have hc1 : ¬ (cnt = 0 ∨ dSize < dByte ∨ sSize < sByte ∨
        dBit ≥ BITS_IN_BYTE ∨ sBit ≥ BITS_IN_BYTE ∨ mul64 sSize BITS_IN_BYTE < cnt) := by
      simp only [BITS_IN_BYTE]
      push_neg
      refine ⟨by omega, by omega, by omega, by omega, by omega, ?_⟩
      rw [mul64_eq_mul sSize 8 (by omega)]
      omega
    have hc2 : sub64 (mul64 (sub64 dSize dByte) BITS_IN_BYTE) dBit < cnt := by
      rw [hd_expr]
      omega
    rw [bit_queue_bit_buffer_copy, if_neg hc1, if_pos hc2]
  · intro hspace hclip
    rw [bit_buffer_copy_normal_eq dst src dByte dBit dSize sByte sBit sSize cnt
      hcnt hdB hsB hdby hsby hcorner_d hcorner_s hsize_d hsize_s hcnt2 hspace]
    have hmin : min cnt (8 * (sSize - sByte) - sBit) = 8 * (sSize - sByte) - sBit := by
      omega
    rw [hmin]
    exact ⟨rfl, rfl⟩
  · intro hspace n hn hlt
    rw [bit_buffer_copy_normal_eq dst src dByte dBit dSize sByte sBit sSize cnt
      hcnt hdB hsB hdby hsby hcorner_d hcorner_s hsize_d hsize_s hcnt2 hspace] at hn
    have : n = min cnt (8 * (sSize - sByte) - sBit) := by
      have := Int.ofNat.inj hn
      omega
    omega

/-- Witness for C6: destination `[0]` from position (0,0) of a 1-byte buffer
(8 bits of space), source `[255]` from position (0,4) of a 1-byte buffer
(4 bits available), request 8 bits: the copy clips to 4 and succeeds. -/
theorem C6_witness :
    (bit_queue_bit_buffer_copy [0] [255] 0 0 1 0 4 1 8).2.1 = Int.ofNat 4 ∧
    (bit_queue_bit_buffer_copy [0] [255] 0 0 1 0 4 1 8).2.2 = none := by
  have h := (C6_theorem [0] [255] 0 0 1 0 4 1 8 (by decide) (by decide) (by decide)
    (by decide) (by decide) (by decide) (by decide) (by rw [W64_val]; decide)
    (by rw [W64_val]; decide) (by decide)).2.1 (by decide) (by decide)
  exact h

/-- Claim C10: the validity checks of `bit_queue_bit_buffer_copy` accept a
start byte offset equal to the buffer length (only strictly greater offsets
are rejected with `EINVAL`); for such a start with nonzero bit offset the
unsigned remaining-capacity expressions `(size - offset)*8 - bit_offset`
wrap around modulo `2^64`, so the destination-space check passes and no
source clipping occurs for any `bit_count` up to `src_buff_size * 8`: the
call returns `bit_count` with errno untouched. -/
theorem C10_theorem (dst src : List Nat) (dst_buff_size src_buff_size cnt dBit sBit : Nat)
    (hd0 : 0 < dBit) (hd8 : dBit < 8) (hs0 : 0 < sBit) (hs8 : sBit < 8)
    (hc0 : 0 < cnt) (hsz : 8 * src_buff_size < W64) (hcnt : cnt ≤ 8 * src_buff_size) :
    sub64 (mul64 (sub64 dst_buff_size dst_buff_size) BITS_IN_BYTE) dBit = W64 - dBit ∧
    sub64 (mul64 (sub64 src_buff_size src_buff_size) BITS_IN_BYTE) sBit = W64 - sBit ∧
    (bit_queue_bit_buffer_copy dst src dst_buff_size dBit dst_buff_size
        src_buff_size sBit src_buff_size cnt).2.1 = Int.ofNat cnt ∧
    (bit_queue_bit_buffer_copy dst src dst_buff_size dBit dst_buff_size
        src_buff_size sBit src_buff_size cnt).2.2 = none ∧
    (bit_queue_bit_buffer_copy dst src (dst_buff_size + 1) dBit dst_buff_size
        src_buff_size sBit src_buff_size cnt).2.2 = some Cerrno.EINVAL := by
  have hW := W64_val
  have hwrap : ∀ b : Nat, 0 < b → b < 8 →
      sub64 (mul64 (sub64 dst_buff_size dst_buff_size) BITS_IN_BYTE) b = W64 - b := by
    intro b hb1 hb2
    rw [sub64_self]
    simp only [BITS_IN_BYTE]
    have h0 : mul64 0 8 = 0 := by simp [mul64]
    rw [h0]
    exact sub64_zero_left b hb1 (by omega)
  have hwrap2 : ∀ b : Nat, 0 < b → b < 8 →
      sub64 (mul64 (sub64 src_buff_size src_buff_size) BITS_IN_BYTE) b = W64 - b := by
    intro b hb1 hb2
    rw [sub64_self]
    simp only [BITS_IN_BYTE]
    have h0 : mul64 0 8 = 0 := by simp [mul64]
    rw [h0]
    exact sub64_zero_left b hb1 (by omega)
  have hd_expr := hwrap dBit hd0 hd8
  have hs_expr := hwrap2 sBit hs0 hs8
  have hcnt8 : cnt ≤ W64 - 8 := by omega
  have hc1 : ¬ (cnt = 0 ∨ dst_buff_size < dst_buff_size ∨ src_buff_size < src_buff_size ∨
      dBit ≥ BITS_IN_BYTE ∨ sBit ≥ BITS_IN_BYTE ∨ mul64 src_buff_size BITS_IN_BYTE < cnt) := by
    simp only [BITS_IN_BYTE]
    push_neg
    refine ⟨by omega, by omega, by omega, by omega, by omega, ?_⟩
    rw [mul64_eq_mul src_buff_size 8 (by omega)]
    omega
  have hc2 : ¬ (sub64 (mul64 (sub64 dst_buff_size dst_buff_size) BITS_IN_BYTE) dBit < cnt) := by
    rw [hd_expr]
    omega
  have hnoclip : ¬ (cnt > sub64 (mul64 (sub64 src_buff_size src_buff_size) BITS_IN_BYTE) sBit) := by
    rw [hs_expr]
    omega
  refine ⟨hd_expr, hs_expr, ?_, ?_, ?_⟩
  · rw [bit_queue_bit_buffer_copy, if_neg hc1, if_neg hc2]
    simp only [if_neg hnoclip]
  · rw [bit_queue_bit_buffer_copy, if_neg hc1, if_neg hc2]
  · have hc3 : cnt = 0 ∨ dst_buff_size < dst_buff_size + 1 ∨ src_buff_size < src_buff_size ∨
        dBit ≥ BITS_IN_BYTE ∨ sBit ≥ BITS_IN_BYTE ∨ mul64 src_buff_size BITS_IN_BYTE < cnt :=
      Or.inr (Or.inl (by omega))
    rw [bit_queue_bit_buffer_copy, if_pos hc3]

/-- Witness for C10 at a concrete input: 1-byte buffers, both byte offsets
equal to the size, bit offsets 3 and 5, request 8 bits. -/
theorem C10_witness :
    sub64 (mul64 (sub64 1 1) BITS_IN_BYTE) 3 = W64 - 3 ∧
    (bit_queue_bit_buffer_copy [0] [0] 1 3 1 1 5 1 8).2.1 = Int.ofNat 8 ∧
    (bit_queue_bit_buffer_copy [0] [0] 1 3 1 1 5 1 8).2.2 = none := by
  have h := C10_theorem [0] [0] 1 1 8 3 5 (by decide) (by decide) (by decide) (by decide)
    (by decide) (by rw [W64_val]; decide) (by decide)
  exact ⟨h.1, h.2.2.1, h.2.2.2.1⟩

/-- Claim C9: destroying a valid queue frees the backing buffer exactly when
the ownership flag is set, invalidates the buffer reference, and returns 0;
destroying a queue whose buffer reference is already absent returns -1 with
errno `EINVAL` and frees nothing, so the buffer is never freed twice. -/
theorem C9_theorem (bq : BitQueue) :
    (∀ b, bq.buffer = some b →
      bit_queue_destroy bq = ⟨{ bq with buffer := none }, 0, none, bq.free_buff⟩ ∧
      (bit_queue_destroy bq).freed_buffer = bq.free_buff ∧
      (bit_queue_destroy bq).bq.buffer = none ∧
      bit_queue_destroy (bit_queue_destroy bq).bq =
        ⟨(bit_queue_destroy bq).bq, -1, some Cerrno.EINVAL, false⟩) ∧
    (bq.buffer = none →
      bit_queue_destroy bq = ⟨bq, -1, some Cerrno.EINVAL, false⟩) := by
  constructor
  · intro b hb
    simp [bit_queue_destroy, hb]
  · intro hb
    simp [bit_queue_destroy, hb]

/-- Witness for C9: an owned 1-byte queue is destroyed (buffer freed, ret 0);
the second destroy fails with `EINVAL` and frees nothing. -/
theorem C9_witness :
    bit_queue_destroy ⟨some [5], 0, 0, 0, 0, 8, 1, true⟩ =
      ⟨⟨none, 0, 0, 0, 0, 8, 1, true⟩, 0, none, true⟩ ∧
    bit_queue_destroy (bit_queue_destroy ⟨some [5], 0, 0, 0, 0, 8, 1, true⟩).bq =
      ⟨(bit_queue_destroy ⟨some [5], 0, 0, 0, 0, 8, 1, true⟩).bq, -1, some Cerrno.EINVAL,
        false⟩ := by
  have h := (C9_theorem ⟨some [5], 0, 0, 0, 0, 8, 1, true⟩).1 [5] rfl
  exact ⟨h.1, h.2.2.2⟩

/-- Claim C7: error classification and failure atomicity of the queue
operations.  For a valid queue (backing buffer present, `written_bits` within
capacity) and argument checks passed (`0 < bit_count ≤ buffer_size*8` for the
caller's buffer): `has_space`/`has_data` compute exactly the free-bit and
valid-bit comparisons of the claim; a `bit_count` above the queue's total
capacity makes both write and read return -1 with errno `EMSGSIZE`; a
`bit_count` within capacity but above the free bits (write) or the valid bits
(read) returns -1 with errno `EAGAIN`; in all these failures the returned
queue state and buffers are exactly the inputs, byte for byte. -/
theorem C7_theorem (bq : BitQueue) (qbuf buffer : List Nat) (buffer_size bit_count : Nat)
    (hbuf : bq.buffer = some qbuf)
    (hc0 : 0 < bit_count)
    (hbs : 8 * buffer_size < W64)
    (hcb : bit_count ≤ 8 * buffer_size)
    (hqs : 8 * bq.buffer_size < W64)
    (hwr : bq.written_bits ≤ 8 * bq.buffer_size) :
    (bit_queue_has_space bq bit_count =
      decide (bit_count ≤ 8 * bq.buffer_size - bq.written_bits)) ∧
    (bit_queue_has_data bq bit_count = decide (bit_count ≤ bq.written_bits)) ∧
    (8 * bq.buffer_size < bit_count →
      bit_queue_write_bits bq buffer buffer_size bit_count =
        ⟨bq, buffer, -1, some Cerrno.EMSGSIZE⟩ ∧
      bit_queue_read_bits bq buffer buffer_size bit_count =
        ⟨bq, buffer, -1, some Cerrno.EMSGSIZE⟩) ∧
    (bit_count ≤ 8 * bq.buffer_size → 8 * bq.buffer_size - bq.written_bits < bit_count →
      bit_queue_write_bits bq buffer buffer_size bit_count =
        ⟨bq, buffer, -1, some Cerrno.EAGAIN⟩) ∧
    (bit_count ≤ 8 * bq.buffer_size → bq.written_bits < bit_count →
      bit_queue_read_bits bq buffer buffer_size bit_count =
        ⟨bq, buffer, -1, some Cerrno.EAGAIN⟩) := by
  have hqm : mul64 bq.buffer_size BITS_IN_BYTE = 8 * bq.buffer_size := by
    simp only [BITS_IN_BYTE]
    rw [mul64_eq_mul _ _ (by omega)]
    omega
  have hbm : mul64 buffer_size BITS_IN_BYTE = 8 * buffer_size := by
    simp only [BITS_IN_BYTE]
    rw [mul64_eq_mul _ _ (by omega)]
    omega
  have hsp : bit_queue_has_space bq bit_count =
      decide (bit_count ≤ 8 * bq.buffer_size - bq.written_bits) := by
    rw [bit_queue_has_space, hqm, sub64_eq_sub _ _ (by omega) hwr]
  have harg : ¬ (bit_count = 0 ∨ mul64 buffer_size BITS_IN_BYTE < bit_count) := by
    rw [hbm]
    omega
  refine ⟨hsp, rfl, ?_, ?_, ?_⟩
  · intro hbig
    have hmsg : bit_count > mul64 bq.buffer_size BITS_IN_BYTE := by
      rw [hqm]
      omega
    constructor
    · rw [bit_queue_write_bits, if_neg harg]
      rw [hbuf]
      simp only [if_pos hmsg]
    · rw [bit_queue_read_bits, if_neg harg]
      rw [hbuf]
      simp only [if_pos hmsg]
  · intro hcap hfree
    have hmsg : ¬ (bit_count > mul64 bq.buffer_size BITS_IN_BYTE) := by
      rw [hqm]
      omega
    have hnospace : ¬ (bit_queue_has_space bq bit_count) = true := by
      rw [hsp]
      simp
      omega
    rw [bit_queue_write_bits, if_neg harg]
    rw [hbuf]
    simp only [if_neg hmsg]
    rw [if_pos hnospace]
  · intro hcap hdata
    have hmsg : ¬ (bit_count > mul64 bq.buffer_size BITS_IN_BYTE) := by
      rw [hqm]
      omega
    have hnodata : ¬ (bit_queue_has_data bq bit_count) = true := by
      rw [bit_queue_has_data]
      simp
      omega
    rw [bit_queue_read_bits, if_neg harg]
    rw [hbuf]
    simp only [if_neg hmsg]
    rw [if_pos hnodata]

/-- Witness for C7: a 2-byte queue holding 10 valid bits; a write of 8 bits
(free bits 6 < 8) fails with `EAGAIN` leaving queue and buffers unchanged,
and a write of 17 bits (above the 16-bit capacity) fails with `EMSGSIZE`. -/
theorem C7_witness :
    bit_queue_write_bits ⟨some [0, 0], 0, 0, 0, 0, 10, 2, true⟩ [0, 0, 0] 3 8 =
      ⟨⟨some [0, 0], 0, 0, 0, 0, 10, 2, true⟩, [0, 0, 0], -1, some Cerrno.EAGAIN⟩ ∧
    bit_queue_write_bits ⟨some [0, 0], 0, 0, 0, 0, 10, 2, true⟩ [0, 0, 0] 3 17 =
      ⟨⟨some [0, 0], 0, 0, 0, 0, 10, 2, true⟩, [0, 0, 0], -1, some Cerrno.EMSGSIZE⟩ := by
  constructor
  · exact (C7_theorem ⟨some [0, 0], 0, 0, 0, 0, 10, 2, true⟩ [0, 0] [0, 0, 0] 3 8 rfl
      (by decide) (by rw [W64_val]; decide) (by decide) (by rw [W64_val]; decide)
      (by decide)).2.2.2.1 (by decide) (by decide)
  · exact ((C7_theorem ⟨some [0, 0], 0, 0, 0, 0, 10, 2, true⟩ [0, 0] [0, 0, 0] 3 17 rfl
      (by decide) (by rw [W64_val]; decide) (by decide) (by rw [W64_val]; decide)
      (by decide)).2.2.1 (by decide)).1

/-- Claim C5: frame condition of the transfer primitive.  For a successful
call in the well-defined regime (start positions inside the buffers, byte
values below 256 as for `uint8_t` data), with `k` the number of bits copied:
every destination bit is its old value OR-ed with the copied source bit when
it lies in the copied range `[dst_start, dst_start + k)` and is exactly its
old value otherwise (the touched bytes are never zeroed first), and every
destination byte outside the touched byte range keeps its exact old value. -/
theorem C5_theorem (dst src : List Nat) (dByte dBit dSize sByte sBit sSize cnt k : Nat)
    (hlen : dst.length = dSize)
    (hwf : ∀ b ∈ dst, b < 256)
    (hcnt : 0 < cnt) (hdB : dBit < 8) (hsB : sBit < 8)
    (hdby : dByte ≤ dSize) (hsby : sByte ≤ sSize)
    (hcorner_d : dByte < dSize ∨ dBit = 0)
    (hcorner_s : sByte < sSize ∨ sBit = 0)
    (hsize_d : 8 * dSize < W64) (hsize_s : 8 * sSize < W64)
    (hcnt2 : cnt ≤ 8 * sSize)
    (hspace : cnt ≤ 8 * (dSize - dByte) - dBit)
    (hk : k = min cnt (8 * (sSize - sByte) - sBit)) :
    (bit_queue_bit_buffer_copy dst src dByte dBit dSize sByte sBit sSize cnt).2.1 =
      Int.ofNat k ∧
    (bit_queue_bit_buffer_copy dst src dByte dBit dSize sByte sBit sSize cnt).2.2 = none ∧
    (bit_queue_bit_buffer_copy dst src dByte dBit dSize sByte sBit sSize cnt).1.length =
      dst.length ∧
    (∀ p, bufBit (bit_queue_bit_buffer_copy dst src dByte dBit dSize sByte sBit sSize cnt).1 p =
      (bufBit dst p ||
        (decide (8 * dByte + dBit ≤ p ∧ p < 8 * dByte + dBit + k) &&
          bufBit src (8 * sByte + sBit + (p - (8 * dByte + dBit)))))) ∧
    (∀ i, (i < dByte ∨ 8 * dByte + dBit + k ≤ 8 * i) →
      (bit_queue_bit_buffer_copy dst src dByte dBit dSize sByte sBit sSize cnt).1.getD i 0 =
        dst.getD i 0) := by
  rw [bit_buffer_copy_normal_eq dst src dByte dBit dSize sByte sBit sSize cnt
    hcnt hdB hsB hdby hsby hcorner_d hcorner_s hsize_d hsize_s hcnt2 hspace, ← hk]
  have hloop := copyLoop_spec src (k + 1) ⟨dst, dByte, dBit, sByte, sBit, k⟩
    hdB hsB (by show k ≤ k + 1; omega)
    (by show 8 * dByte + dBit + k ≤ 8 * dst.length; rw [hlen]; omega)
  obtain ⟨g1, g2, g3, g4, g5, g6, g7, g8, g9⟩ := hloop
  simp only [CopySt.dstPos, CopySt.srcPos] at g7 g9
  exact ⟨rfl, rfl, g2, g7, fun i hi => g9 hwf i hi⟩

/-- Witness for C5 at a concrete input: copying 7 bits from position (0,2)
of `[0xFF, 0x00]` into position (0,3) of `[0x05, 0x80]` succeeds, turns byte
0 into `0x05 ||| (0x3F <<< 3)` with the old low bits kept, carries one bit
into byte 1, and bit 1 of the destination keeps its old value 0. -/
theorem C5_witness :
    (bit_queue_bit_buffer_copy [0x05, 0x80] [0xFF, 0x00] 0 3 2 0 2 2 7).2.1 =
      Int.ofNat 7 ∧
    bufBit (bit_queue_bit_buffer_copy [0x05, 0x80] [0xFF, 0x00] 0 3 2 0 2 2 7).1 0 = true ∧
    bufBit (bit_queue_bit_buffer_copy [0x05, 0x80] [0xFF, 0x00] 0 3 2 0 2 2 7).1 1 = false ∧
    bufBit (bit_queue_bit_buffer_copy [0x05, 0x80] [0xFF, 0x00] 0 3 2 0 2 2 7).1 4 =
      (bufBit [0x05, 0x80] 4 || bufBit [0xFF, 0x00] 3) := by
  have h := C5_theorem [0x05, 0x80] [0xFF, 0x00] 0 3 2 0 2 2 7 7 rfl (by decide) (by decide)
    (by decide) (by decide) (by decide) (by decide) (by decide) (by decide)
    (by rw [W64_val]; decide) (by rw [W64_val]; decide) (by decide) (by decide) (by decide)
  refine ⟨h.1, ?_, ?_, ?_⟩
  · rw [h.2.2.2.1 0]
    decide
  · rw [h.2.2.2.1 1]
    decide
  · rw [h.2.2.2.1 4]
    decide

theorem bufBit_replicate_zero (m p : Nat) : bufBit (List.replicate m 0) p = false := by
  unfold bufBit
  have hz : (List.replicate m (0 : Nat)).getD (p / 8) 0 = 0 := by
    by_cases h : p / 8 < m
    · simp [List.getD_eq_getElem?_getD, List.getElem?_replicate, h]
    · have : (List.replicate m (0 : Nat)).length ≤ p / 8 := by simp; omega
      simp [List.getD_eq_getElem?_getD, List.getElem?_eq_none this]
  rw [hz]
  exact Nat.zero_testBit _

/-- Claim C4: per-iteration semantics of the transfer primitive, and
misaligned-copy correctness.  Every iteration of the copy loop (in the
regime `dst_bit_offset < 8`, `src_bit_offset < 8` maintained by the
function's checks) transfers exactly
`min (8 - dst_bit_offset) (min (8 - src_bit_offset) remaining_bits)` bits,
advances both linear positions by that run length with byte rollover
whenever a bit offset reaches 8, and decrements the remaining count by the
run, repeating until exhaustion.  Consequently, for every pair of start bit
offsets (all 8×8 combinations), every bit count 1–16, and every source
buffer, copying into a pre-cleared destination yields exactly the source's
logical bit sequence shifted from `src_off` to `dst_off` (LSB-first within
each byte): the same result as a byte-aligned copy followed by a bit
shift. -/
theorem C4_theorem :
    (∀ (src : List Nat) (s : CopySt), s.dst_bit_offset < 8 → s.src_bit_offset < 8 →
      (copyStep src s).r_bits =
        s.r_bits - min (8 - s.dst_bit_offset) (min (8 - s.src_bit_offset) s.r_bits) ∧
      (copyStep src s).dstPos =
        s.dstPos + min (8 - s.dst_bit_offset) (min (8 - s.src_bit_offset) s.r_bits) ∧
      (copyStep src s).srcPos =
        s.srcPos + min (8 - s.dst_bit_offset) (min (8 - s.src_bit_offset) s.r_bits) ∧
      (copyStep src s).dst_bit_offset < 8 ∧ (copyStep src s).src_bit_offset < 8) ∧
    (∀ (dstOff srcOff n : Nat) (src : List Nat), dstOff < 8 → srcOff < 8 →
      1 ≤ n → n ≤ 16 →
      (bit_queue_bit_buffer_copy (List.replicate 3 0) src 0 dstOff 3 0 srcOff 3 n).2.1 =
        Int.ofNat n ∧
      (∀ i, i < n →
        bufBit (bit_queue_bit_buffer_copy (List.replicate 3 0) src 0 dstOff 3 0 srcOff 3 n).1
          (dstOff + i) = bufBit src (srcOff + i))) := by
  constructor
  · intro src s hd hs
    obtain ⟨f1, f2, f3, f4, f5, f6, f7, f8, f9, f10⟩ := copyStep_facts src s hd hs
    have hmm : min (8 - s.dst_bit_offset) (min (8 - s.src_bit_offset) s.r_bits) =
        min s.r_bits (min (8 - s.dst_bit_offset) (8 - s.src_bit_offset)) := by omega
    rw [hmm]
    exact ⟨f1, f5, f6, f3, f4⟩
  · intro dstOff srcOff n src hdo hso hn1 hn16
    have h24 : (24 : Nat) < W64 := by rw [W64_val]; omega
    have heq := bit_buffer_copy_normal_eq (List.replicate 3 0) src 0 dstOff 3 0 srcOff 3 n
      (by omega) hdo hso (by omega) (by omega) (Or.inl (by omega)) (Or.inl (by omega))
      (by omega) (by omega) (by omega) (by omega)
    have hk : min n (8 * (3 - 0) - srcOff) = n := by omega
    rw [hk] at heq
    have hloop := copyLoop_spec src (n + 1) ⟨List.replicate 3 0, 0, dstOff, 0, srcOff, n⟩
      hdo hso (by show n ≤ n + 1; omega)
      (by show 8 * 0 + dstOff + n ≤ 8 * (List.replicate 3 (0 : Nat)).length; simp; omega)
    obtain ⟨g1, g2, g3, g4, g5, g6, g7, g8, g9⟩ := hloop
    constructor
    · rw [heq]
    · intro i hi
      have hbb := g7 (dstOff + i)
      simp only [CopySt.dstPos, CopySt.srcPos] at hbb
      have h1 : (bit_queue_bit_buffer_copy (List.replicate 3 0) src 0 dstOff 3 0 srcOff 3 n).1 =
          (copyLoop src (n + 1) ⟨List.replicate 3 0, 0, dstOff, 0, srcOff, n⟩).dst := by
        rw [heq]
      rw [h1, hbb, bufBit_replicate_zero]
      have hin : 8 * 0 + dstOff ≤ dstOff + i ∧ dstOff + i < 8 * 0 + dstOff + n := by omega
      have hidx : 8 * 0 + srcOff + (dstOff + i - (8 * 0 + dstOff)) = srcOff + i := by omega
      rw [decide_eq_true hin, hidx]
      simp

/-- Witness for C4: one concrete loop iteration (destination bit offset 3,
source bit offset 5, 10 remaining bits: the run is `min 5 (min 3 10) = 3`),
and the 8×8 equivalence instantiated at offsets 3 and 5 with 16 bits from the
source `[0xAB, 0xCD, 0x12]`, checked at bit index 7. -/
theorem C4_witness :
    (copyStep [0xAB] ⟨[0, 0], 0, 3, 0, 5, 10⟩).r_bits = 10 - min (8 - 3) (min (8 - 5) 10) ∧
    (copyStep [0xAB] ⟨[0, 0], 0, 3, 0, 5, 10⟩).dstPos = 3 + min (8 - 3) (min (8 - 5) 10) ∧
    (bit_queue_bit_buffer_copy (List.replicate 3 0) [0xAB, 0xCD, 0x12] 0 3 3 0 5 3 16).2.1 =
      Int.ofNat 16 ∧
    bufBit (bit_queue_bit_buffer_copy (List.replicate 3 0) [0xAB, 0xCD, 0x12] 0 3 3 0 5 3 16).1
      (3 + 7) = bufBit [0xAB, 0xCD, 0x12] (5 + 7) := by
  have h1 := C4_theorem.1 [0xAB] ⟨[0, 0], 0, 3, 0, 5, 10⟩ (by decide) (by decide)
  have h2 := C4_theorem.2 3 5 16 [0xAB, 0xCD, 0x12] (by decide) (by decide) (by decide)
    (by decide)
  exact ⟨h1.1, h1.2.1, h2.1, h2.2 7 (by decide)⟩

theorem bit_buffer_copy_out (dst src : List Nat)
    (dByte dBit dSize sByte sBit sSize cnt : Nat) :
    (bit_queue_bit_buffer_copy dst src dByte dBit dSize sByte sBit sSize cnt).2.1 = -1 ∨
    (∃ k : Nat,
      (bit_queue_bit_buffer_copy dst src dByte dBit dSize sByte sBit sSize cnt).2.1 =
        Int.ofNat k ∧
      k ≤ cnt ∧
      k ≤ sub64 (mul64 (sub64 sSize sByte) BITS_IN_BYTE) sBit ∧
      cnt ≤ sub64 (mul64 (sub64 dSize dByte) BITS_IN_BYTE) dBit) := by
  rw [bit_queue_bit_buffer_copy]
  split_ifs with h1 h2
  · left
    rfl
  · left
    rfl
  · right
    simp only
    refine ⟨if cnt > sub64 (mul64 (sub64 sSize sByte) BITS_IN_BYTE) sBit
        then sub64 (mul64 (sub64 sSize sByte) BITS_IN_BYTE) sBit else cnt, rfl, ?_, ?_, by omega⟩
    · split_ifs <;> omega
    · split_ifs <;> omega

theorem cursor_advance_le (n byte bit k : Nat) (hn : n < W64) (hb1 : byte < n) (hb2 : bit < 8)
    (hk : k ≤ sub64 (mul64 (sub64 n byte) BITS_IN_BYTE) bit) :
    byte + (bit + k) % 256 / 8 ≤ n := by
  have hW := W64_val
  by_cases hd : n - byte ≤ 31
  · have hsub : sub64 n byte = n - byte := sub64_eq_sub n byte hn (by omega)
    have hmul : mul64 (n - byte) BITS_IN_BYTE = (n - byte) * 8 := by
      simp only [BITS_IN_BYTE]
      exact mul64_eq_mul _ _ (by omega)
    have hsub2 : sub64 ((n - byte) * 8) bit = (n - byte) * 8 - bit :=
      sub64_eq_sub _ _ (by omega) (by omega)
    rw [hsub, hmul, hsub2] at hk
    have hlt : bit + k < 256 := by omega
    rw [Nat.mod_eq_of_lt hlt]
    omega
  · have hm : (bit + k) % 256 < 256 := Nat.mod_lt _ (by omega)
    omega

theorem readLoopBody_inv (qbuf : List Nat) (bsz n : Nat) (s : ReadLoopSt)
    (hn : n < W64) (hr1 : s.r_byte_offset < n) (hr2 : s.r_bit_offset < 8) :
    (readLoopBody qbuf bsz n s).r_byte_offset < n ∧
    (readLoopBody qbuf bsz n s).r_bit_offset < 8 ∧
    (readLoopBody qbuf bsz n s).written_bits ≤ s.written_bits := by
  rw [readLoopBody]
  by_cases hc : (bit_queue_bit_buffer_copy s.buffer qbuf s.b_byte_offset s.b_bit_offset bsz
      s.r_byte_offset s.r_bit_offset n s.r_bits).2.1 = -1
  · rw [if_pos hc]
    exact ⟨hr1, hr2, le_refl _⟩
  · rw [if_neg hc]
    rcases bit_buffer_copy_out s.buffer qbuf s.b_byte_offset s.b_bit_offset bsz
      s.r_byte_offset s.r_bit_offset n s.r_bits with h | ⟨k, hk1, hk2, hk3, hk4⟩
    · exact absurd h hc
    · rw [hk1]
      have htn : (Int.ofNat k).toNat = k := rfl
      rw [htn]
      have hadv := cursor_advance_le n s.r_byte_offset s.r_bit_offset k hn hr1 hr2 hk3
      simp only
      by_cases hwrap : s.r_byte_offset + (s.r_bit_offset + k) % 256 / BITS_IN_BYTE = n
      · rw [if_pos hwrap, if_pos hwrap]
        exact ⟨by omega, by omega, by omega⟩
      · rw [if_neg hwrap, if_neg hwrap]
        refine ⟨?_, ?_, by omega⟩
        · simp only [BITS_IN_BYTE] at hwrap ⊢
          omega
        · have hb8 : (s.r_bit_offset + k) % 256 % BITS_IN_BYTE < 8 := by
            simp only [BITS_IN_BYTE]
            omega
          exact hb8

theorem writeLoopBody_inv (buffer : List Nat) (bsz n : Nat) (s : WriteLoopSt)
    (hn : n < W64) (hw1 : s.w_byte_offset < n) (hw2 : s.w_bit_offset < 8) :
    (writeLoopBody buffer bsz n s).w_byte_offset < n ∧
    (writeLoopBody buffer bsz n s).w_bit_offset < 8 ∧
    (writeLoopBody buffer bsz n s).written_bits + (writeLoopBody buffer bsz n s).r_bits ≤
      s.written_bits + s.r_bits := by
  rw [writeLoopBody]
  by_cases hc : (bit_queue_bit_buffer_copy s.qbuf buffer s.w_byte_offset s.w_bit_offset n
      s.b_byte_offset s.b_bit_offset bsz s.r_bits).2.1 = -1
  · rw [if_pos hc]
    exact ⟨hw1, hw2, le_refl _⟩
  · rw [if_neg hc]
    rcases bit_buffer_copy_out s.qbuf buffer s.w_byte_offset s.w_bit_offset n
      s.b_byte_offset s.b_bit_offset bsz s.r_bits with h | ⟨k, hk1, hk2, hk3, hk4⟩
    · exact absurd h hc
    · rw [hk1]
      have htn : (Int.ofNat k).toNat = k := rfl
      rw [htn]
      have hadv := cursor_advance_le n s.w_byte_offset s.w_bit_offset k hn hw1 hw2
        (le_trans hk2 hk4)
      simp only
      by_cases hwrap : s.w_byte_offset + (s.w_bit_offset + k) % 256 / BITS_IN_BYTE = n
      · rw [if_pos hwrap]
        refine ⟨by omega, ?_, by omega⟩
        have hb8 : (s.w_bit_offset + k) % 256 % BITS_IN_BYTE < 8 := by
          simp only [BITS_IN_BYTE]
          omega
        exact hb8
      · rw [if_neg hwrap]
        refine ⟨?_, ?_, by omega⟩
        · simp only [BITS_IN_BYTE] at hwrap ⊢
          omega
        · have hb8 : (s.w_bit_offset + k) % 256 % BITS_IN_BYTE < 8 := by
            simp only [BITS_IN_BYTE]
            omega
          exact hb8

theorem readLoop_inv (qbuf : List Nat) (bsz n : Nat) (hn : n < W64) :
    ∀ (fuel : Nat) (s : ReadLoopSt), s.r_byte_offset < n → s.r_bit_offset < 8 →
    (readLoop qbuf bsz n fuel s).r_byte_offset < n ∧
    (readLoop qbuf bsz n fuel s).r_bit_offset < 8 ∧
    (readLoop qbuf bsz n fuel s).written_bits ≤ s.written_bits := by
  intro fuel
  induction fuel with
  | zero =>
    intro s h1 h2
    exact ⟨h1, h2, le_refl _⟩
  | succ fuel ih =>
    intro s h1 h2
    obtain ⟨b1, b2, b3⟩ := readLoopBody_inv qbuf bsz n s hn h1 h2
    by_cases hf : (readLoopBody qbuf bsz n s).failed.isSome
    · have hred : readLoop qbuf bsz n (fuel + 1) s = readLoopBody qbuf bsz n s := by
        simp only [readLoop]
        rw [if_pos hf]
      rw [hred]
      exact ⟨b1, b2, b3⟩
    · by_cases hr : (readLoopBody qbuf bsz n s).r_bits > 0
      · have hred : readLoop qbuf bsz n (fuel + 1) s =
            readLoop qbuf bsz n fuel (readLoopBody qbuf bsz n s) := by
          simp only [readLoop]
          rw [if_neg hf, if_pos hr]
        rw [hred]
        obtain ⟨c1, c2, c3⟩ := ih (readLoopBody qbuf bsz n s) b1 b2
        exact ⟨c1, c2, le_trans c3 b3⟩
      · have hred : readLoop qbuf bsz n (fuel + 1) s = readLoopBody qbuf bsz n s := by
          simp only [readLoop]
          rw [if_neg hf, if_neg hr]
        rw [hred]
        exact ⟨b1, b2, b3⟩

theorem writeLoop_inv (buffer : List Nat) (bsz n : Nat) (hn : n < W64) :
    ∀ (fuel : Nat) (s : WriteLoopSt), s.w_byte_offset < n → s.w_bit_offset < 8 →
    (writeLoop buffer bsz n fuel s).w_byte_offset < n ∧
    (writeLoop buffer bsz n fuel s).w_bit_offset < 8 ∧
    (writeLoop buffer bsz n fuel s).written_bits + (writeLoop buffer bsz n fuel s).r_bits ≤
      s.written_bits + s.r_bits := by
  intro fuel
  induction fuel with
  | zero =>
    intro s h1 h2
    exact ⟨h1, h2, le_refl _⟩
  | succ fuel ih =>
    intro s h1 h2
    obtain ⟨b1, b2, b3⟩ := writeLoopBody_inv buffer bsz n s hn h1 h2
    by_cases hf : (writeLoopBody buffer bsz n s).failed.isSome
    · have hred : writeLoop buffer bsz n (fuel + 1) s = writeLoopBody buffer bsz n s := by
        simp only [writeLoop]
        rw [if_pos hf]
      rw [hred]
      exact ⟨b1, b2, b3⟩
    · by_cases hr : (writeLoopBody buffer bsz n s).r_bits > 0
      · have hred : writeLoop buffer bsz n (fuel + 1) s =
            writeLoop buffer bsz n fuel (writeLoopBody buffer bsz n s) := by
          simp only [writeLoop]
          rw [if_neg hf, if_pos hr]
        rw [hred]
        obtain ⟨c1, c2, c3⟩ := ih (writeLoopBody buffer bsz n s) b1 b2
        exact ⟨c1, c2, by omega⟩
      · have hred : writeLoop buffer bsz n (fuel + 1) s = writeLoopBody buffer bsz n s := by
          simp only [writeLoop]
          rw [if_neg hf, if_neg hr]
        rw [hred]
        exact ⟨b1, b2, b3⟩

theorem write_bits_preserves (bq : BitQueue) (buffer : List Nat) (bsz cnt : Nat)
    (h : bq.InvStrong) : (bit_queue_write_bits bq buffer bsz cnt).bq.InvStrong := by
  obtain ⟨h0, h1, h2, h3, h4, h5⟩ := h
  rw [bit_queue_write_bits]
  by_cases ha : cnt = 0 ∨ mul64 bsz BITS_IN_BYTE < cnt
  · rw [if_pos ha]
    exact ⟨h0, h1, h2, h3, h4, h5⟩
  · rw [if_neg ha]
    cases hb : bq.buffer with
    | none => exact ⟨h0, h1, h2, h3, h4, h5⟩
    | some qbuf =>
      dsimp only
      by_cases hmsg : cnt > mul64 bq.buffer_size BITS_IN_BYTE
      · rw [if_pos hmsg]
        exact ⟨h0, h1, h2, h3, h4, h5⟩
      · rw [if_neg hmsg]
        by_cases hsp : ¬ bit_queue_has_space bq cnt = true
        · rw [if_pos hsp]
          exact ⟨h0, h1, h2, h3, h4, h5⟩
        · rw [if_neg hsp]
          have hspace : cnt ≤ sub64 (mul64 bq.buffer_size BITS_IN_BYTE) bq.written_bits := by
            rw [not_not, bit_queue_has_space, decide_eq_true_eq] at hsp
            exact hsp
          have hC : mul64 bq.buffer_size BITS_IN_BYTE < W64 :=
            Nat.mod_lt _ W64_pos
          have hsum : bq.written_bits + cnt ≤ mul64 bq.buffer_size BITS_IN_BYTE := by
            rw [sub64_eq_sub _ _ hC h5] at hspace
            omega
          obtain ⟨l1, l2, l3⟩ := writeLoop_inv buffer bsz bq.buffer_size h0 (cnt + 1)
            ⟨qbuf, 0, 0, bq.w_byte_offset, bq.w_bit_offset, bq.written_bits, cnt, none⟩ h3 h4
          have l3r : (writeLoop buffer bsz bq.buffer_size (cnt + 1)
              ⟨qbuf, 0, 0, bq.w_byte_offset, bq.w_bit_offset, bq.written_bits, cnt,
                none⟩).written_bits +
              (writeLoop buffer bsz bq.buffer_size (cnt + 1)
              ⟨qbuf, 0, 0, bq.w_byte_offset, bq.w_bit_offset, bq.written_bits, cnt,
                none⟩).r_bits ≤ bq.written_bits + cnt := l3
          cases hff : (writeLoop buffer bsz bq.buffer_size (cnt + 1)
              ⟨qbuf, 0, 0, bq.w_byte_offset, bq.w_bit_offset, bq.written_bits, cnt, none⟩).failed
          all_goals
            simp only [hff]
            refine ⟨h0, h1, h2, l1, l2, ?_⟩
            show (writeLoop buffer bsz bq.buffer_size (cnt + 1)
              ⟨qbuf, 0, 0, bq.w_byte_offset, bq.w_bit_offset, bq.written_bits, cnt,
                none⟩).written_bits ≤ mul64 bq.buffer_size BITS_IN_BYTE
            omega

theorem read_bits_preserves (bq : BitQueue) (buffer : List Nat) (bsz cnt : Nat)
    (h : bq.InvStrong) : (bit_queue_read_bits bq buffer bsz cnt).bq.InvStrong := by
  obtain ⟨h0, h1, h2, h3, h4, h5⟩ := h
  rw [bit_queue_read_bits]
  by_cases ha : cnt = 0 ∨ mul64 bsz BITS_IN_BYTE < cnt
  · rw [if_pos ha]
    exact ⟨h0, h1, h2, h3, h4, h5⟩
  · rw [if_neg ha]
    cases hb : bq.buffer with
    | none => exact ⟨h0, h1, h2, h3, h4, h5⟩
    | some qbuf =>
      dsimp only
      by_cases hmsg : cnt > mul64 bq.buffer_size BITS_IN_BYTE
      · rw [if_pos hmsg]
        exact ⟨h0, h1, h2, h3, h4, h5⟩
      · rw [if_neg hmsg]
        by_cases hda : ¬ bit_queue_has_data bq cnt = true
        · rw [if_pos hda]
          exact ⟨h0, h1, h2, h3, h4, h5⟩
        · rw [if_neg hda]
          obtain ⟨l1, l2, l3⟩ := readLoop_inv qbuf bsz bq.buffer_size h0 (cnt + 1)
            ⟨buffer, 0, 0, bq.r_byte_offset, bq.r_bit_offset, bq.written_bits, cnt, none⟩ h1 h2
          have l3r : (readLoop qbuf bsz bq.buffer_size (cnt + 1)
              ⟨buffer, 0, 0, bq.r_byte_offset, bq.r_bit_offset, bq.written_bits, cnt,
                none⟩).written_bits ≤ bq.written_bits := l3
          cases hff : (readLoop qbuf bsz bq.buffer_size (cnt + 1)
              ⟨buffer, 0, 0, bq.r_byte_offset, bq.r_bit_offset, bq.written_bits, cnt, none⟩).failed
          all_goals
            simp only [hff]
            refine ⟨h0, l1, l2, h3, h4, ?_⟩
            show (readLoop qbuf bsz bq.buffer_size (cnt + 1)
              ⟨buffer, 0, 0, bq.r_byte_offset, bq.r_bit_offset, bq.written_bits, cnt,
                none⟩).written_bits ≤ mul64 bq.buffer_size BITS_IN_BYTE
            omega

/-- Claim C8: every queue state reachable from either constructor through
any sequence of `bit_queue_write_bits` / `bit_queue_read_bits` calls
(successful or failing) keeps both cursors within bounds
(`byte_offset < buffer_size`, wrapped to zero exactly on reaching
`buffer_size`, and `bit_offset < 8`) and the valid-bit count within
`0 ≤ written_bits ≤ buffer_size * 8`. -/
theorem C8_theorem (bq : BitQueue) (h : Reachable bq) :
    bq.r_byte_offset < bq.buffer_size ∧ bq.r_bit_offset < 8 ∧
    bq.w_byte_offset < bq.buffer_size ∧ bq.w_bit_offset < 8 ∧
    bq.written_bits ≤ 8 * bq.buffer_size := by
  have hs : bq.InvStrong := by
    induction h with
    | base byte_count bq hn hinit =>
      rw [bit_queue_base_init] at hinit
      by_cases hz : byte_count = 0
      · rw [if_pos hz] at hinit
        exact absurd hinit (by simp)
      · rw [if_neg hz] at hinit
        have heq := Option.some.inj hinit
        subst heq
        exact ⟨hn, by show 0 < byte_count; omega, by show (0 : Nat) < 8; omega,
          by show 0 < byte_count; omega, by show (0 : Nat) < 8; omega,
          by show (0 : Nat) ≤ mul64 byte_count BITS_IN_BYTE; omega⟩
    | wrap buffer byte_count free_buff bq hn hinit =>
      rw [bit_queue_init] at hinit
      by_cases hz : byte_count = 0
      · rw [if_pos hz] at hinit
        exact absurd hinit (by simp)
      · rw [if_neg hz] at hinit
        have heq := Option.some.inj hinit
        subst heq
        exact ⟨hn, by show 0 < byte_count; omega, by show (0 : Nat) < 8; omega,
          by show 0 < byte_count; omega, by show (0 : Nat) < 8; omega,
          le_refl _⟩
    | write bq buffer buffer_size bit_count hr ih =>
      exact write_bits_preserves bq buffer buffer_size bit_count ih
    | read bq buffer buffer_size bit_count hr ih =>
      exact read_bits_preserves bq buffer buffer_size bit_count ih
  obtain ⟨h0, h1, h2, h3, h4, h5⟩ := hs
  refine ⟨h1, h2, h3, h4, le_trans h5 ?_⟩
  simp only [mul64, BITS_IN_BYTE]
  have hmle := Nat.mod_le (bq.buffer_size * 8) W64
  omega

/-- Witness for C8 on a concrete reachable state: a fresh 2-byte owned queue
after one successful 5-bit write. -/
theorem C8_witness :
    (bit_queue_write_bits ⟨some [0, 0], 0, 0, 0, 0, 0, 2, true⟩ [0xAA] 1 5).bq.r_byte_offset <
      (bit_queue_write_bits ⟨some [0, 0], 0, 0, 0, 0, 0, 2, true⟩ [0xAA] 1 5).bq.buffer_size ∧
    (bit_queue_write_bits ⟨some [0, 0], 0, 0, 0, 0, 0, 2, true⟩ [0xAA] 1 5).bq.r_bit_offset < 8 ∧
    (bit_queue_write_bits ⟨some [0, 0], 0, 0, 0, 0, 0, 2, true⟩ [0xAA] 1 5).bq.w_byte_offset <
      (bit_queue_write_bits ⟨some [0, 0], 0, 0, 0, 0, 0, 2, true⟩ [0xAA] 1 5).bq.buffer_size ∧
    (bit_queue_write_bits ⟨some [0, 0], 0, 0, 0, 0, 0, 2, true⟩ [0xAA] 1 5).bq.w_bit_offset < 8 ∧
    (bit_queue_write_bits ⟨some [0, 0], 0, 0, 0, 0, 0, 2, true⟩ [0xAA] 1 5).bq.written_bits ≤
      8 * (bit_queue_write_bits ⟨some [0, 0], 0, 0, 0, 0, 0, 2, true⟩ [0xAA] 1 5).bq.buffer_size := by
  have hreach : Reachable (bit_queue_write_bits ⟨some [0, 0], 0, 0, 0, 0, 0, 2, true⟩
      [0xAA] 1 5).bq :=
    Reachable.write ⟨some [0, 0], 0, 0, 0, 0, 0, 2, true⟩ [0xAA] 1 5
      (Reachable.base 2 ⟨some [0, 0], 0, 0, 0, 0, 0, 2, true⟩ (by rw [W64_val]; omega) rfl)
  exact C8_theorem _ hreach
